import Mathlib

/-!
Verification of the PostgreSQL Jalali calendar converter.

This file gives a shallow embedding of the repository's core logic and proves
the frozen claims about it.

Modelling conventions:

* Calendar dates are modelled as natural numbers (days since an arbitrary
  epoch).  The Python code keeps dates as ISO `YYYY-MM-DD` strings and
  compares them with string `<=` and `min`; for fixed-width ISO dates string
  order coincides with calendar order, so the natural-number order is a
  faithful model of the comparisons performed by
  `process_data_in_chunks` (src/postgresql_jalali_converter.py).
* The Gregorian→Jalali conversion is delegated by the source to the external
  `jalali_pandas` library, and the holiday information to the external
  holidayapi.ir service.  Both are therefore parameters of the embedding:
  `conv : Nat → JalaliFields` for the conversion and
  `lookup : Nat → Option (List Event)` for the per-day holiday query, where
  `none` models the network call raising an exception.
* Database side effects are modelled as an explicit trace of `Action`s in the
  order the pipeline issues them; a raised exception aborts the run, cutting
  the trace short.
-/

namespace PJConv

/-- Fields the source derives from the converted Jalali date in
`_expand_jalali_dates` (src/src/jalali_date_enrichment.py): year, month, day,
weekday, ISO week number and quarter.  Python integers, hence `Int`. -/
structure JalaliFields where
  jyear : Int
  jmonth : Int
  jday : Int
  jweekday : Int
  jweek : Int
  jquarter : Int

/-- One event of the holiday API's JSON response: a holiday flag and a
description, as consumed by `_get_holiday_info_per_day`. -/
structure Event where
  is_holiday : Bool
  description : String

/-- Embedding of `_map_quarter_number_to_name`: the dict lookup with default
`"Unknown"`.  The mapped strings are copied verbatim from the source file. -/
def map_quarter_number_to_name (quarter_number : Int) : String :=
  if quarter_number = 1 then "Ø¨Ù‡Ø§Ø±"
  else if quarter_number = 2 then "ØªØ§Ø¨Ø³ØªØ§Ù†"
  else if quarter_number = 3 then "Ù¾Ø§ÛŒÛŒØ²"
  else if quarter_number = 4 then "Ø²Ù…Ø³ØªØ§Ù†"
  else "Unknown"

/-- Embedding of `_map_month_number_to_name`: the dict lookup with default
`"Unknown"`.  The mapped strings are copied verbatim from the source file. -/
def map_month_number_to_name (month_number : Int) : String :=
  if month_number = 1 then "ÙØ±ÙˆØ±Ø¯ÛŒÙ†"
  else if month_number = 2 then "Ø§Ø±Ø¯ÛŒØ¨Ù‡Ø´Øª"
  else if month_number = 3 then "Ø®Ø±Ø¯Ø§Ø¯"
  else if month_number = 4 then "ØªÛŒØ±"
  else if month_number = 5 then "Ù…Ø±Ø¯Ø§Ø¯"
  else if month_number = 6 then "Ø´Ù‡Ø±ÛŒÙˆØ±"
  else if month_number = 7 then "Ù…Ù‡Ø±"
  else if month_number = 8 then "Ø¢Ø¨Ø§Ù†"
  else if month_number = 9 then "Ø¢Ø°Ø±"
  else if month_number = 10 then "Ø¯ÛŒ"
  else if month_number = 11 then "Ø¨Ù‡Ù…Ù†"
  else if month_number = 12 then "Ø§Ø³ÙÙ†Ø¯"
  else "Unknown"

/-- Embedding of `_map_weekday_number_to_name`: the dict lookup with default
`"Unknown"`.  The mapped strings are copied verbatim from the source file. -/
def map_weekday_number_to_name (weekday_number : Int) : String :=
  if weekday_number = 0 then "Ø´Ù†Ø¨Ù‡"
  else if weekday_number = 1 then "ÛŒÚ©â€ŒØ´Ù†Ø¨Ù‡"
  else if weekday_number = 2 then "Ø¯ÙˆØ´Ù†Ø¨Ù‡"
  else if weekday_number = 3 then "Ø³Ù‡â€ŒØ´Ù†Ø¨Ù‡"
  else if weekday_number = 4 then "Ú†Ù‡Ø§Ø±Ø´Ù†Ø¨Ù‡"
  else if weekday_number = 5 then "Ù¾Ù†Ø¬â€ŒØ´Ù†Ø¨Ù‡"
  else if weekday_number = 6 then "Ø¬Ù…Ø¹Ù‡"
  else "Unknown"

/-- The event loop of `_get_holiday_info_per_day`: starting from
`is_holiday = False` and `holiday_events = []`, each flagged event sets the
flag and appends its description. -/
def holiday_scan : List Event → Bool → List String → Bool × List String
  | [], acc_flag, acc_events => (acc_flag, acc_events)
  | ev :: rest, acc_flag, acc_events =>
    if ev.is_holiday then holiday_scan rest true (acc_events ++ [ev.description])
    else holiday_scan rest acc_flag acc_events

/-- Embedding of `_get_holiday_info_per_day` after the JSON events have been
obtained: the scan over `data["events"]` followed by `", ".join(...)`. -/
def get_holiday_info_per_day (events : List Event) : Bool × String :=
  (fun r => (r.1, String.intercalate ", " r.2)) (holiday_scan events false [])

/-- One output row of `get_calendar_with_jalali_and_holidays`: the Gregorian
date, the expanded Jalali fields, the localized names and the holiday
annotation columns. -/
structure CalendarRow where
  date : Nat
  jdate : JalaliFields
  jquarter_name : String
  jmonth_name : String
  jweekday_name : String
  is_holiday : Bool
  holiday_events : String

/-- Row construction for one day: apply the external conversion, the three
name mappings and the holiday extraction, exactly as the column assignments
in `get_calendar_with_jalali_and_holidays` do per day. -/
def mkCalendarRow (conv : Nat → JalaliFields) (d : Nat) (events : List Event) : CalendarRow :=
  { date := d
    jdate := conv d
    jquarter_name := map_quarter_number_to_name (conv d).jquarter
    jmonth_name := map_month_number_to_name (conv d).jmonth
    jweekday_name := map_weekday_number_to_name (conv d).jweekday
    is_holiday := (get_holiday_info_per_day events).1
    holiday_events := (get_holiday_info_per_day events).2 }

/-- Embedding of `_generate_base_dataframe`: `pd.date_range(start, end)` is
the inclusive day sequence `start, start+1, ..., end` (empty when
`end < start`). -/
def date_range (s e : Nat) : List Nat := List.range' s (e + 1 - s)

/-- The per-day application of the holiday query performed by
`_get_holiday_info` via `Series.apply`: days are processed in order and the
first failing call raises, aborting the whole application with no partial
result. -/
def apply_per_day (f : Nat → Option CalendarRow) : List Nat → Option (List CalendarRow)
  | [] => some []
  | d :: rest =>
    match f d with
    | none => none
    | some row =>
      match apply_per_day f rest with
      | none => none
      | some rows => some (row :: rows)

/-- Embedding of `get_calendar_with_jalali_and_holidays`: one row per day of
the inclusive range, each built from the conversion and the per-day holiday
lookup; a failing lookup (modelled by `none`) fails the whole call. -/
def get_calendar_with_jalali_and_holidays (conv : Nat → JalaliFields)
    (lookup : Nat → Option (List Event)) (s e : Nat) : Option (List CalendarRow) :=
  apply_per_day (fun d => (lookup d).map (mkCalendarRow conv d)) (date_range s e)

/-- The observable store operations of one pipeline run, in issue order.  The
window `(start, end)` annotating each constructor records the loop iteration
that issued the call. -/
inductive Action where
  | createTables : Action
  | createIndex : Action
  | enrich : Nat × Nat → Action
  | append : Nat × Nat → Action
  | merge : Nat × Nat → Action
  | truncate : Nat × Nat → Action
deriving DecidableEq

/-- The window sequence computed by the loop of `process_data_in_chunks`:
while `current <= end`, the window is
`(current, min (current + chunk_size) end)` — the source adds
`timedelta(days=chunk_size)` with no `- 1` — and the cursor advances to the
window end plus one day. -/
def chunk_windows (c e cs : Nat) : List (Nat × Nat) :=
  if c ≤ e then (c, min (c + cs) e) :: chunk_windows (min (c + cs) e + 1) e cs else []
termination_by e + 1 - c
decreasing_by simp_wf; omega

/-- Embedding of `process_data_in_chunks`: per window it enriches, appends to
the staging table, merges into the target, truncates the staging table, then
advances the cursor.  A failing holiday lookup during enrichment raises, so
the iteration stops with only the attempted enrichment in the trace; the
Boolean records normal completion (`true`) versus an aborted run (`false`). -/
def process_data_in_chunks (conv : Nat → JalaliFields) (lookup : Nat → Option (List Event))
    (c e cs : Nat) : List Action × Bool :=
  if c ≤ e then
    match get_calendar_with_jalali_and_holidays conv lookup c (min (c + cs) e) with
    | none => ([Action.enrich (c, min (c + cs) e)], false)
    | some _ =>
      (Action.enrich (c, min (c + cs) e) :: Action.append (c, min (c + cs) e) ::
        Action.merge (c, min (c + cs) e) :: Action.truncate (c, min (c + cs) e) ::
        (process_data_in_chunks conv lookup (min (c + cs) e + 1) e cs).1,
       (process_data_in_chunks conv lookup (min (c + cs) e + 1) e cs).2)
  else ([], true)
termination_by e + 1 - c
decreasing_by all_goals simp_wf; omega

/-- Embedding of `main`: provision the source and target tables, provision
the target index, then run the chunked load.  The two Booleans model whether
the two provisioning queries succeed; a failing one raises and aborts the
run before any chunk is processed. -/
def main_pipeline (conv : Nat → JalaliFields) (lookup : Nat → Option (List Event))
    (s e cs : Nat) (createOk indexOk : Bool) : List Action :=
  if createOk then
    if indexOk then
      Action.createTables :: Action.createIndex ::
        (process_data_in_chunks conv lookup s e cs).1
    else [Action.createTables, Action.createIndex]
  else [Action.createTables]

/-- The four store calls one successful loop iteration issues for its
window. -/
def blockOf (w : Nat × Nat) : List Action :=
  [Action.enrich w, Action.append w, Action.merge w, Action.truncate w]

/-- A conversion stub for concrete evaluations: the trace of the pipeline
does not depend on the converted field values. -/
def trivialConv : Nat → JalaliFields := fun _ => ⟨0, 0, 0, 0, 0, 0⟩

/-- A holiday lookup that succeeds on every day with no events. -/
def emptyLookup : Nat → Option (List Event) := fun _ => some []

/-- The database calls `run_postgresql_query` issues, in program order
(src/src/utils/db_connector.py): connect, obtain a cursor, execute (the
Boolean records whether the statement succeeded), optionally fetch, commit,
close cursor, close connection. -/
inductive DbOp where
  | connect : DbOp
  | mkCursor : DbOp
  | execute : String → Bool → DbOp
  | fetch : DbOp
  | commit : DbOp
  | closeCursor : DbOp
  | closeConn : DbOp
deriving DecidableEq

/-- Transactional store state: statements already committed, and statements
executed on the open connection but not yet committed. -/
structure Store where
  committed : List String
  pending : List String

/-- Standard transactional semantics of one database call: a successful
execute adds the statement to the pending set, commit makes the pending set
durable, closing the connection without commit discards it. -/
def stepOp (st : Store) (op : DbOp) : Store :=
  match op with
  | DbOp.execute q ok => if ok then { st with pending := st.pending ++ [q] } else st
  | DbOp.commit => { committed := st.committed ++ st.pending, pending := [] }
  | DbOp.closeConn => { st with pending := [] }
  | _ => st

/-- Apply a sequence of database calls to a store. -/
def run_ops (st : Store) (ops : List DbOp) : Store := ops.foldl stepOp st

/-- Embedding of `run_postgresql_query`: the result of `cursor.execute` is a
parameter (`Except.error` models the raised exception, `Except.ok none` a
cursor with no description, `Except.ok (some rows)` a result set).  The
returned pair is the call's result and the trace of database calls it
issued: on failure the exception propagates immediately after the execute,
so neither commit nor the close calls are reached. -/
def run_postgresql_query (exec : String → Except String (Option (List (List String))))
    (q : String) : Except String (List (List String)) × List DbOp :=
  match exec q with
  | Except.error e => (Except.error e, [DbOp.connect, DbOp.mkCursor, DbOp.execute q false])
  | Except.ok none =>
    (Except.ok [], [DbOp.connect, DbOp.mkCursor, DbOp.execute q true,
      DbOp.commit, DbOp.closeCursor, DbOp.closeConn])
  | Except.ok (some rows) =>
    (Except.ok rows, [DbOp.connect, DbOp.mkCursor, DbOp.execute q true, DbOp.fetch,
      DbOp.commit, DbOp.closeCursor, DbOp.closeConn])

/-- The accumulator scan of `get_holiday_info_per_day` computes the flag
`any event is flagged` and appends exactly the flagged events'
descriptions. -/
theorem holiday_scan_spec (events : List Event) : ∀ (acc_flag : Bool) (acc_events : List String),
    holiday_scan events acc_flag acc_events =
      (acc_flag || events.any (fun ev => ev.is_holiday),
       acc_events ++ (events.filter (fun ev => ev.is_holiday)).map (fun ev => ev.description)) := by
  induction events with
  | nil => intro f a; simp [holiday_scan]
  | cons ev rest ih =>
    intro f a
    cases hev : ev.is_holiday with
    | true => simp [holiday_scan, hev, ih, List.filter_cons, List.append_assoc]
    | false => simp [holiday_scan, hev, ih, List.filter_cons]

/-- C6: for every day, the enricher sets `is_holiday` to true iff at least
one event returned by the holiday lookup is flagged, and sets
`holiday_events` to the comma-joined descriptions of exactly the flagged
events, the empty string when no event is flagged. -/
theorem c6_holiday_extraction (events : List Event) :
    (get_holiday_info_per_day events).1 = events.any (fun ev => ev.is_holiday) ∧
    (get_holiday_info_per_day events).2 =
      String.intercalate ", "
        ((events.filter (fun ev => ev.is_holiday)).map (fun ev => ev.description)) ∧
    ((∀ ev ∈ events, ev.is_holiday = false) → (get_holiday_info_per_day events).2 = "") := by
  have h := holiday_scan_spec events false []
  refine ⟨by simp [get_holiday_info_per_day, h], by simp [get_holiday_info_per_day, h], ?_⟩
  intro hall
  have hnil : events.filter (fun ev => ev.is_holiday) = [] := by
    rw [List.filter_eq_nil_iff]
    intro a ha
    simp [hall a ha]
  simp [get_holiday_info_per_day, h, hnil]
  rfl

/-- Witness for C6 at a concrete event list with no flagged event. -/
theorem c6_holiday_extraction_witness :
    (get_holiday_info_per_day [⟨false, "x"⟩]).2 = "" :=
  (c6_holiday_extraction [⟨false, "x"⟩]).2.2 (by decide)

/-- C7: the quarter, month and weekday name mappings are total on the
integers: every integer outside the defined domain maps to `"Unknown"`, and
every integer inside the domain maps to its fixed localized string. -/
theorem c7_name_mappings_total :
    (∀ q : Int, q < 1 ∨ 4 < q → map_quarter_number_to_name q = "Unknown") ∧
    (map_quarter_number_to_name 1 = "Ø¨Ù‡Ø§Ø±" ∧
     map_quarter_number_to_name 2 = "ØªØ§Ø¨Ø³ØªØ§Ù†" ∧
     map_quarter_number_to_name 3 = "Ù¾Ø§ÛŒÛŒØ²" ∧
     map_quarter_number_to_name 4 = "Ø²Ù…Ø³ØªØ§Ù†") ∧
    (∀ m : Int, m < 1 ∨ 12 < m → map_month_number_to_name m = "Unknown") ∧
    (map_month_number_to_name 1 = "ÙØ±ÙˆØ±Ø¯ÛŒÙ†" ∧
     map_month_number_to_name 2 = "Ø§Ø±Ø¯ÛŒØ¨Ù‡Ø´Øª" ∧
     map_month_number_to_name 3 = "Ø®Ø±Ø¯Ø§Ø¯" ∧
     map_month_number_to_name 4 = "ØªÛŒØ±" ∧
     map_month_number_to_name 5 = "Ù…Ø±Ø¯Ø§Ø¯" ∧
     map_month_number_to_name 6 = "Ø´Ù‡Ø±ÛŒÙˆØ±" ∧
     map_month_number_to_name 7 = "Ù…Ù‡Ø±" ∧
     map_month_number_to_name 8 = "Ø¢Ø¨Ø§Ù†" ∧
     map_month_number_to_name 9 = "Ø¢Ø°Ø±" ∧
     map_month_number_to_name 10 = "Ø¯ÛŒ" ∧
     map_month_number_to_name 11 = "Ø¨Ù‡Ù…Ù†" ∧
     map_month_number_to_name 12 = "Ø§Ø³ÙÙ†Ø¯") ∧
    (∀ w : Int, w < 0 ∨ 6 < w → map_weekday_number_to_name w = "Unknown") ∧
    (map_weekday_number_to_name 0 = "Ø´Ù†Ø¨Ù‡" ∧
     map_weekday_number_to_name 1 = "ÛŒÚ©â€ŒØ´Ù†Ø¨Ù‡" ∧
     map_weekday_number_to_name 2 = "Ø¯ÙˆØ´Ù†Ø¨Ù‡" ∧
     map_weekday_number_to_name 3 = "Ø³Ù‡â€ŒØ´Ù†Ø¨Ù‡" ∧
     map_weekday_number_to_name 4 = "Ú†Ù‡Ø§Ø±Ø´Ù†Ø¨Ù‡" ∧
     map_weekday_number_to_name 5 = "Ù¾Ù†Ø¬â€ŒØ´Ù†Ø¨Ù‡" ∧
     map_weekday_number_to_name 6 = "Ø¬Ù…Ø¹Ù‡") := by
  refine ⟨?_, by decide, ?_, by decide, ?_, by decide⟩
  · intro q h
    unfold map_quarter_number_to_name
    repeat rw [if_neg (by omega)]
  · intro m h
    unfold map_month_number_to_name
    repeat rw [if_neg (by omega)]
  · intro w h
    unfold map_weekday_number_to_name
    repeat rw [if_neg (by omega)]

/-- Witness for C7 at concrete out-of-domain integers. -/
theorem c7_name_mappings_total_witness :
    map_quarter_number_to_name 5 = "Unknown" ∧
    map_month_number_to_name 0 = "Unknown" ∧
    map_weekday_number_to_name 7 = "Unknown" :=
  ⟨c7_name_mappings_total.1 5 (by omega),
   c7_name_mappings_total.2.2.1 0 (by omega),
   c7_name_mappings_total.2.2.2.2.1 7 (by omega)⟩

/-- C8: for every date `d` whose holiday lookup answers, enriching the
single-day range `(d, d)` produces exactly one row, and that row's
Gregorian date equals `d`. -/
theorem c8_single_day_enrichment (conv : Nat → JalaliFields)
    (lookup : Nat → Option (List Event)) (d : Nat) (events : List Event)
    (h : lookup d = some events) :
    get_calendar_with_jalali_and_holidays conv lookup d d =
      some [mkCalendarRow conv d events] ∧
    (mkCalendarRow conv d events).date = d := by
  constructor
  · have hr : date_range d d = [d] := by
      unfold date_range
      have h1 : d + 1 - d = 1 := by omega
      rw [h1, List.range'_one]
    unfold get_calendar_with_jalali_and_holidays
    rw [hr]
    simp [apply_per_day, h]
  · rfl

/-- Witness for C8 at a concrete day with a lookup that answers. -/
theorem c8_single_day_enrichment_witness :
    get_calendar_with_jalali_and_holidays trivialConv emptyLookup 7 7 =
      some [mkCalendarRow trivialConv 7 []] ∧
    (mkCalendarRow trivialConv 7 []).date = 7 :=
  c8_single_day_enrichment trivialConv emptyLookup 7 [] rfl

/-- C9: `run_postgresql_query` commits only after the statement has executed
successfully; when execution raises, the error propagates to the caller, no
commit is issued by the call, and the store's committed state is
unchanged. -/
theorem c9_query_commit_semantics
    (exec : String → Except String (Option (List (List String)))) (q : String) (st : Store) :
    (∀ err, exec q = Except.error err →
      (run_postgresql_query exec q).1 = Except.error err ∧
      DbOp.commit ∉ (run_postgresql_query exec q).2 ∧
      (run_ops st (run_postgresql_query exec q).2).committed = st.committed) ∧
    (∀ r, exec q = Except.ok r →
      ∃ pre post, (run_postgresql_query exec q).2 = pre ++ DbOp.commit :: post ∧
        DbOp.execute q true ∈ pre ∧
        (st.pending = [] →
          (run_ops st (run_postgresql_query exec q).2).committed = st.committed ++ [q])) := by
  constructor
  · intro err herr
    refine ⟨?_, ?_, ?_⟩ <;>
      simp [run_postgresql_query, herr, run_ops, stepOp]
  · intro r hok
    rcases r with _ | rows
    · refine ⟨[DbOp.connect, DbOp.mkCursor, DbOp.execute q true],
        [DbOp.closeCursor, DbOp.closeConn], ?_, by simp, ?_⟩
      · simp [run_postgresql_query, hok]
      · intro hp
        simp [run_postgresql_query, hok, run_ops, stepOp, hp]
    · refine ⟨[DbOp.connect, DbOp.mkCursor, DbOp.execute q true, DbOp.fetch],
        [DbOp.closeCursor, DbOp.closeConn], ?_, by simp, ?_⟩
      · simp [run_postgresql_query, hok]
      · intro hp
        simp [run_postgresql_query, hok, run_ops, stepOp, hp]

/-- Witness for C9 at a concrete failing execution. -/
theorem c9_query_commit_semantics_witness :
    DbOp.commit ∉ (run_postgresql_query (fun _ => Except.error "boom") "q").2 ∧
    (run_ops ⟨[], []⟩ (run_postgresql_query (fun _ => Except.error "boom") "q").2).committed
      = [] :=
  ⟨((c9_query_commit_semantics (fun _ => Except.error "boom") "q" ⟨[], []⟩).1 "boom" rfl).2.1,
   ((c9_query_commit_semantics (fun _ => Except.error "boom") "q" ⟨[], []⟩).1 "boom" rfl).2.2⟩

/-- C10: when the start date is greater than the end date,
`process_data_in_chunks` performs zero iterations and returns normally: the
trace is empty (no enrichment, no append, merge or truncate) and the run
completes. -/
theorem c10_empty_range (conv : Nat → JalaliFields) (lookup : Nat → Option (List Event))
    (s e cs : Nat) (h : e < s) :
    process_data_in_chunks conv lookup s e cs = ([], true) := by
  rw [process_data_in_chunks, if_neg (by omega)]

/-- Witness for C10 at a concrete inverted range. -/
theorem c10_empty_range_witness :
    process_data_in_chunks trivialConv emptyLookup 5 3 30 = ([], true) :=
  c10_empty_range trivialConv emptyLookup 5 3 30 (by omega)

/-- Structural properties of the window list, from an arbitrary loop cursor
`c`: the list is nonempty, its first window starts at `c`, its last window
ends at `e`, every window is well formed, and each next window starts the
day after the previous one ends. -/
theorem chunk_windows_props (c e cs : Nat) (h : c ≤ e) :
    chunk_windows c e cs ≠ [] ∧
    (chunk_windows c e cs).head?.map Prod.fst = some c ∧
    (chunk_windows c e cs).getLast?.map Prod.snd = some e ∧
    (∀ w ∈ chunk_windows c e cs, w.1 ≤ w.2) ∧
    List.Chain' (fun a b => b.1 = a.2 + 1) (chunk_windows c e cs) := by
  revert h
  induction c, e, cs using chunk_windows.induct with
  | case1 c e cs hce ih =>
    intro h
    by_cases hcl : e ≤ c + cs
    · have hmin : min (c + cs) e = e := by omega
      have htail : chunk_windows (e + 1) e cs = [] := by
        rw [chunk_windows, if_neg (by omega)]
      rw [chunk_windows, if_pos hce, hmin, htail]
      refine ⟨by simp, by simp, by simp, ?_, List.chain'_singleton _⟩
      intro w hw
      rw [List.mem_singleton] at hw
      subst hw
      exact hce
    · have hmin : min (c + cs) e = c + cs := by omega
      rw [hmin] at ih
      obtain ⟨hne, hhead, hlast, hmem, hchain⟩ := ih (by omega)
      rw [chunk_windows, if_pos hce, hmin]
      obtain ⟨y, t', hyt⟩ := List.exists_cons_of_ne_nil hne
      rw [hyt] at hhead hlast hchain hmem
      simp only [List.head?_cons, Option.map_some] at hhead
      rw [hyt]
      refine ⟨by simp, by simp, ?_, ?_, ?_⟩
      · rw [List.getLast?_cons_cons]
        exact hlast
      · intro w hw
        rcases List.mem_cons.mp hw with rfl | hw'
        · simp
        · exact hmem w hw'
      · rw [List.chain'_cons]
        exact ⟨by simpa using hhead, hchain⟩
  | case2 c e cs hce =>
    intro h
    exact absurd h hce

/-- C5: for all valid `(start, end, chunk_size)` with `start <= end` and
`chunk_size >= 1`, the windows produced by the chunked loop partition
`[start, end]` exactly: the list is nonempty, the first window starts at
`start`, the last window ends at `end`, every window satisfies
`start <= end`, and each next window starts the day after the previous one
ends — hence the windows are contiguous and do not overlap. -/
theorem c5_windows_partition (s e cs : Nat) (h1 : s ≤ e) (_h2 : 1 ≤ cs) :
    chunk_windows s e cs ≠ [] ∧
    (chunk_windows s e cs).head?.map Prod.fst = some s ∧
    (chunk_windows s e cs).getLast?.map Prod.snd = some e ∧
    (∀ w ∈ chunk_windows s e cs, w.1 ≤ w.2) ∧
    List.Chain' (fun a b => b.1 = a.2 + 1) (chunk_windows s e cs) :=
  chunk_windows_props s e cs h1

/-- Witness for C5 at a concrete range and chunk size. -/
theorem c5_windows_partition_witness :
    chunk_windows 0 5 2 ≠ [] ∧ (chunk_windows 0 5 2).head?.map Prod.fst = some 0 :=
  ⟨(c5_windows_partition 0 5 2 (by omega) (by omega)).1,
   (c5_windows_partition 0 5 2 (by omega) (by omega)).2.1⟩

/-- Every window's end equals `min (window_start + chunk_size) e` — the
formula the source actually computes, with no `- 1`. -/
theorem chunk_windows_end_formula (c e cs : Nat) :
    ∀ w ∈ chunk_windows c e cs, w.2 = min (w.1 + cs) e := by
  induction c, e, cs using chunk_windows.induct with
  | case1 c e cs hce ih =>
    rw [chunk_windows, if_pos hce]
    intro w hw
    rcases List.mem_cons.mp hw with rfl | hw'
    · rfl
    · exact ih w hw'
  | case2 c e cs hce =>
    rw [chunk_windows, if_neg hce]
    intro w hw
    exact absurd hw (List.not_mem_nil w)

/-- Every window except the last ends exactly `chunk_size` days after its
start: only the final window is clamped to `e`. -/
theorem chunk_windows_dropLast_span (c e cs : Nat) :
    ∀ w ∈ (chunk_windows c e cs).dropLast, w.2 = w.1 + cs := by
  induction c, e, cs using chunk_windows.induct with
  | case1 c e cs hce ih =>
    rw [chunk_windows, if_pos hce]
    by_cases ht : min (c + cs) e + 1 ≤ e
    · have hne : chunk_windows (min (c + cs) e + 1) e cs ≠ [] := by
        rw [chunk_windows, if_pos ht]
        simp
      obtain ⟨y, t', hyt⟩ := List.exists_cons_of_ne_nil hne
      rw [hyt] at ih
      rw [hyt]
      have hdl : ((c, min (c + cs) e) :: y :: t').dropLast
          = (c, min (c + cs) e) :: (y :: t').dropLast := rfl
      rw [hdl]
      intro w hw
      rcases List.mem_cons.mp hw with rfl | hw'
      · simp
        omega
      · exact ih w hw'
    · have htail : chunk_windows (min (c + cs) e + 1) e cs = [] := by
        rw [chunk_windows, if_neg ht]
      rw [htail]
      intro w hw
      simp at hw
  | case2 c e cs hce =>
    rw [chunk_windows, if_neg hce]
    intro w hw
    simp at hw

/-- C1 counterexample: at `start = 0`, `end = 100`, `chunk_size = 30`, the
first window produced by the loop is `(0, 30)` — its end is
`min (0 + 30) 100 = 30`, not `min (0 + 30 - 1) 100 = 29` as the claim's
formula states — and it spans 31 days, not 30, although it is not the last
window. -/
theorem c1_counterexample :
    ¬ (∀ i wi, (chunk_windows 0 100 30)[i]? = some wi →
        i + 1 < (chunk_windows 0 100 30).length →
        wi.2 = min (wi.1 + 30 - 1) 100 ∧ wi.2 + 1 - wi.1 = 30) := by
  intro hcl
  have hw : chunk_windows 0 100 30 = [(0, 30), (31, 61), (62, 92), (93, 100)] := by
    simp [chunk_windows]
  have h0 := hcl 0 (0, 30) (by rw [hw]; rfl) (by rw [hw]; simp)
  simp at h0

/-- C1 amended: in each iteration of the chunked loop the window end is
computed as `window_end = min (current + chunk_size) range_end` (the source
adds `chunk_size` days with no `- 1`), the cursor then advances to
`window_end + 1`, so every window except possibly the last spans exactly
`chunk_size + 1` days. -/
theorem c1_window_arithmetic (c e cs : Nat) :
    (∀ w ∈ chunk_windows c e cs, w.2 = min (w.1 + cs) e) ∧
    List.Chain' (fun a b => b.1 = a.2 + 1) (chunk_windows c e cs) ∧
    (∀ w ∈ (chunk_windows c e cs).dropLast, w.2 = w.1 + cs ∧ w.2 + 1 - w.1 = cs + 1) := by
  refine ⟨chunk_windows_end_formula c e cs, ?_, ?_⟩
  · by_cases h : c ≤ e
    · exact (chunk_windows_props c e cs h).2.2.2.2
    · rw [chunk_windows, if_neg h]
      exact List.chain'_nil
  · intro w hw
    have hspan := chunk_windows_dropLast_span c e cs w hw
    exact ⟨hspan, by omega⟩

/-- Witness for C1's amended statement at a concrete non-final window. -/
theorem c1_window_arithmetic_witness :
    (0, 30).2 = (0, 30).1 + 30 ∧ (0, 30).2 + 1 - (0, 30).1 = 30 + 1 :=
  (c1_window_arithmetic 0 100 30).2.2 (0, 30)
    (by simp [chunk_windows])

/-- The per-day application of a lookup that always answers never fails and
produces exactly one row per day. -/
theorem apply_per_day_map (f : Nat → CalendarRow) :
    ∀ l : List Nat, apply_per_day (fun d => some (f d)) l = some (l.map f) := by
  intro l
  induction l with
  | nil => rfl
  | cons d rest ih => simp [apply_per_day, ih]

/-- With the always-answering empty lookup, enrichment succeeds and yields
one row per day of the range. -/
theorem get_calendar_emptyLookup (conv : Nat → JalaliFields) (s e : Nat) :
    get_calendar_with_jalali_and_holidays conv emptyLookup s e =
      some ((date_range s e).map (fun d => mkCalendarRow conv d [])) :=
  apply_per_day_map (fun d => mkCalendarRow conv d []) (date_range s e)

/-- C2 counterexample: anchoring day numbers at 2024-01-01 = 0, the range
2024-01-01..2024-03-01 is `[0, 60]` (January has 31 days and February 2024
has 29).  With `chunk_size = 30` the loop produces 2 windows, not 3. -/
theorem c2_counterexample : ¬ ((chunk_windows 0 60 30).length = 3) := by
  simp [chunk_windows]

/-- C2 amended: processing days `0..60` (2024-01-01..2024-03-01) with
`chunk_size = 30` produces exactly 2 windows — `(0, 30)` of 31 days and
`(31, 60)` of 30 days — and the run's trace is exactly the first window's
enrich, append, merge, truncate followed by the second window's, never
interleaved across windows. -/
theorem c2_two_windows_trace :
    chunk_windows 0 60 30 = [(0, 30), (31, 60)] ∧
    (30 : Nat) + 1 - 0 = 31 ∧ (60 : Nat) + 1 - 31 = 30 ∧
    process_data_in_chunks trivialConv emptyLookup 0 60 30 =
      (blockOf (0, 30) ++ blockOf (31, 60), true) := by
  refine ⟨by simp [chunk_windows], by norm_num, by norm_num, ?_⟩
  simp [process_data_in_chunks, get_calendar_emptyLookup, blockOf]

/-- An indexed element of a list is a member of it. -/
theorem mem_of_getElem_some {α : Type _} {l : List α} {i : Nat} {a : α}
    (h : l[i]? = some a) : a ∈ l := by
  obtain ⟨hlt, rfl⟩ := List.getElem?_eq_some.mp h
  exact List.getElem_mem hlt

/-- The per-day application fails as soon as any day's function fails. -/
theorem apply_per_day_none (f : Nat → Option CalendarRow) :
    ∀ (l : List Nat) (d : Nat), d ∈ l → f d = none → apply_per_day f l = none := by
  intro l
  induction l with
  | nil =>
    intro d hd hf
    exact absurd hd (List.not_mem_nil d)
  | cons a rest ih =>
    intro d hd hf
    rcases List.mem_cons.mp hd with rfl | hd'
    · simp [apply_per_day, hf]
    · have hrest := ih d hd' hf
      cases hfa : f a with
      | none => simp [apply_per_day, hfa]
      | some row => simp [apply_per_day, hfa, hrest]

/-- Enrichment of a range fails whenever the holiday lookup fails on any day
of the range. -/
theorem get_calendar_fails (conv : Nat → JalaliFields) (lookup : Nat → Option (List Event))
    (s e d : Nat) (h1 : s ≤ d) (h2 : d ≤ e) (h4 : lookup d = none) :
    get_calendar_with_jalali_and_holidays conv lookup s e = none := by
  apply apply_per_day_none _ (date_range s e) d
  · unfold date_range
    rw [List.mem_range']
    exact ⟨d - s, by omega, by omega⟩
  · simp [h4]

/-- C4: if the holiday lookup fails for any day of the current window,
enrichment fails — the `LookupError` propagates before any row of the window
reaches the staging table — and the run aborts immediately: from that loop
state the trace records only the attempted enrichment, so no append, merge
or truncate is issued for the window and no later window is processed. -/
theorem c4_lookup_failure_aborts (conv : Nat → JalaliFields)
    (lookup : Nat → Option (List Event)) (c e cs d : Nat)
    (h1 : c ≤ e) (h2 : c ≤ d) (h3 : d ≤ min (c + cs) e) (h4 : lookup d = none) :
    get_calendar_with_jalali_and_holidays conv lookup c (min (c + cs) e) = none ∧
    process_data_in_chunks conv lookup c e cs =
      ([Action.enrich (c, min (c + cs) e)], false) := by
  have henr := get_calendar_fails conv lookup c (min (c + cs) e) d h2 h3 h4
  refine ⟨henr, ?_⟩
  rw [process_data_in_chunks, if_pos h1, henr]

/-- A holiday lookup that fails on day 3 and answers on every other day. -/
def lookupFailAt3 : Nat → Option (List Event) := fun d => if d = 3 then none else some []

/-- Witness for C4: the lookup fails on day 3 of the ten-day window
`(0, 9)`, so the run's whole trace is the lone attempted enrichment and the
abort flag. -/
theorem c4_lookup_failure_aborts_witness :
    get_calendar_with_jalali_and_holidays trivialConv lookupFailAt3 0 (min (0 + 30) 9)
      = none ∧
    process_data_in_chunks trivialConv lookupFailAt3 0 9 30 =
      ([Action.enrich (0, min (0 + 30) 9)], false) :=
  c4_lookup_failure_aborts trivialConv lookupFailAt3 0 9 30 3 (by omega) (by omega)
    (by norm_num) rfl

/-- The chunk loop's trace is a sequence of complete per-window blocks —
enrich, append, merge, truncate — possibly followed by one attempted
enrichment of the window whose lookup failed. -/
theorem process_trace_shape (conv : Nat → JalaliFields)
    (lookup : Nat → Option (List Event)) (c e cs : Nat) :
    ∃ (ws : List (Nat × Nat)) (rest : List Action),
      (process_data_in_chunks conv lookup c e cs).1 = ws.flatMap blockOf ++ rest ∧
      (rest = [] ∨ ∃ w, rest = [Action.enrich w]) := by
  induction c, e, cs using process_data_in_chunks.induct conv lookup with
  | case1 c e cs hce hnone =>
    refine ⟨[], [Action.enrich (c, min (c + cs) e)], ?_, Or.inr ⟨_, rfl⟩⟩
    rw [process_data_in_chunks, if_pos hce, hnone]
    rfl
  | case2 c e cs hce val hsome ih =>
    obtain ⟨ws, rest, htr, hrest⟩ := ih
    refine ⟨(c, min (c + cs) e) :: ws, rest, ?_, hrest⟩
    rw [process_data_in_chunks, if_pos hce, hsome]
    simp [blockOf, htr]
  | case3 c e cs hce =>
    refine ⟨[], [], ?_, Or.inl rfl⟩
    rw [process_data_in_chunks, if_neg hce]
    rfl

/-- In a block-structured trace followed by a truncate-free tail, every
truncate is the fourth call of its window's block: the positions two and one
before it hold the same window's append and merge. -/
theorem blocks_truncate (ws : List (Nat × Nat)) :
    ∀ (rest : List Action), (∀ a ∈ rest, ∀ w, a ≠ Action.truncate w) →
    ∀ i w, (ws.flatMap blockOf ++ rest)[i]? = some (Action.truncate w) →
      2 ≤ i ∧ (ws.flatMap blockOf ++ rest)[i - 2]? = some (Action.append w) ∧
        (ws.flatMap blockOf ++ rest)[i - 1]? = some (Action.merge w) := by
  induction ws with
  | nil =>
    intro rest hrest i w h
    rw [List.flatMap_nil, List.nil_append] at h
    exact absurd rfl (hrest _ (mem_of_getElem_some h) w)
  | cons w0 ws' ih =>
    intro rest hrest i w h
    have hexp : (w0 :: ws').flatMap blockOf ++ rest =
        Action.enrich w0 :: Action.append w0 :: Action.merge w0 :: Action.truncate w0 ::
          (ws'.flatMap blockOf ++ rest) := by
      simp [blockOf]
    rw [hexp] at h ⊢
    rcases i with _ | _ | _ | _ | n
    · simp at h
    · simp at h
    · simp at h
    · rw [List.getElem?_cons_succ, List.getElem?_cons_succ, List.getElem?_cons_succ,
        List.getElem?_cons_zero] at h
      have hw : w0 = w := by
        have := Option.some.inj h
        exact Action.truncate.inj this
      subst hw
      refine ⟨by omega, by simp, by simp⟩
    · rw [List.getElem?_cons_succ, List.getElem?_cons_succ, List.getElem?_cons_succ,
        List.getElem?_cons_succ] at h
      obtain ⟨h2, ha, hm⟩ := ih rest hrest n w h
      obtain ⟨m, rfl⟩ : ∃ m, n = m + 2 := ⟨n - 2, by omega⟩
      have ha' : (ws'.flatMap blockOf ++ rest)[m]? = some (Action.append w) := by
        have hmm : m + 2 - 2 = m := by omega
        rwa [hmm] at ha
      have hm' : (ws'.flatMap blockOf ++ rest)[m + 1]? = some (Action.merge w) := by
        have hmm : m + 2 - 1 = m + 1 := by omega
        rwa [hmm] at hm
      refine ⟨by omega, ?_, ?_⟩
      · have hmm : m + 2 + 4 - 2 = m + 4 := by omega
        rw [hmm, List.getElem?_cons_succ, List.getElem?_cons_succ, List.getElem?_cons_succ,
          List.getElem?_cons_succ]
        exact ha'
      · have hmm : m + 2 + 4 - 1 = m + 5 := by omega
        rw [hmm, List.getElem?_cons_succ, List.getElem?_cons_succ, List.getElem?_cons_succ,
          List.getElem?_cons_succ]
        exact hm'

/-- C3: in every run — including every aborted prefix of a run — the
pipeline never truncates the staging table before that run's first append:
every truncate in the observable trace is preceded by an earlier append and
an earlier merge of the same window. -/
theorem c3_truncate_after_append_merge (conv : Nat → JalaliFields)
    (lookup : Nat → Option (List Event)) (s e cs : Nat) (createOk indexOk : Bool)
    (t : List Action) (hpre : t <+: main_pipeline conv lookup s e cs createOk indexOk) :
    ∀ i w, t[i]? = some (Action.truncate w) →
      ∃ (j k : Nat), j < k ∧ k < i ∧ t[j]? = some (Action.append w) ∧
        t[k]? = some (Action.merge w) := by
  intro i w hi
  have hlen : i < t.length := (List.getElem?_eq_some.mp hi).1
  obtain ⟨u, hu⟩ := hpre
  have hback : ∀ j, j < t.length →
      (main_pipeline conv lookup s e cs createOk indexOk)[j]? = t[j]? := by
    intro j hj
    rw [← hu, List.getElem?_append_left hj]
  have hmain : (main_pipeline conv lookup s e cs createOk indexOk)[i]? =
      some (Action.truncate w) := by
    rw [hback i hlen]
    exact hi
  cases createOk with
  | false =>
    exfalso
    have hm := mem_of_getElem_some hmain
    simp [main_pipeline] at hm
  | true =>
    cases indexOk with
    | false =>
      exfalso
      have hm := mem_of_getElem_some hmain
      simp [main_pipeline] at hm
    | true =>
      obtain ⟨ws, rest, htr, hrest⟩ := process_trace_shape conv lookup s e cs
      have hrest' : ∀ a ∈ rest, ∀ w', a ≠ Action.truncate w' := by
        rcases hrest with rfl | ⟨w'', rfl⟩
        · intro a ha
          exact absurd ha (List.not_mem_nil a)
        · intro a ha w'
          rw [List.mem_singleton] at ha
          subst ha
          simp
      simp only [main_pipeline, if_true] at hmain
      rcases i with _ | _ | n
      · simp at hmain
      · simp at hmain
      · rw [List.getElem?_cons_succ, List.getElem?_cons_succ, htr] at hmain
        obtain ⟨h2, ha, hm⟩ := blocks_truncate ws rest hrest' n w hmain
        obtain ⟨m, rfl⟩ : ∃ m, n = m + 2 := ⟨n - 2, by omega⟩
        have ha' : (ws.flatMap blockOf ++ rest)[m]? = some (Action.append w) := by
          have hmm : m + 2 - 2 = m := by omega
          rwa [hmm] at ha
        have hm' : (ws.flatMap blockOf ++ rest)[m + 1]? = some (Action.merge w) := by
          have hmm : m + 2 - 1 = m + 1 := by omega
          rwa [hmm] at hm
        refine ⟨m + 2, m + 3, by omega, by omega, ?_, ?_⟩
        · rw [← hback (m + 2) (by omega)]
          simp only [main_pipeline, if_true, List.getElem?_cons_succ]
          rw [htr]
          exact ha'
        · rw [← hback (m + 3) (by omega)]
          simp only [main_pipeline, if_true, List.getElem?_cons_succ]
          rw [htr]
          exact hm'

/-- Witness for C3: the full trace of a one-window run over the single day 0,
whose truncate at position 5 is preceded by the append at 3 and the merge at
4. -/
theorem c3_truncate_after_append_merge_witness :
    ∃ (j k : Nat), j < k ∧ k < 5 ∧
      (main_pipeline trivialConv emptyLookup 0 0 30 true true)[j]? =
        some (Action.append (0, 0)) ∧
      (main_pipeline trivialConv emptyLookup 0 0 30 true true)[k]? =
        some (Action.merge (0, 0)) :=
  c3_truncate_after_append_merge trivialConv emptyLookup 0 0 30 true true _
    (List.prefix_refl _) 5 (0, 0)
    (by simp [main_pipeline, process_data_in_chunks, get_calendar_emptyLookup])

end PJConv
